import Mathlib

/-!
Shallow embedding of `subresource_integrity.py` (moreati/subresource-integrity).

Conventions of the embedding:
* Python `bytes` values are `List Nat` with every element `< 256`.
* Python `str` values are `String` (or `List Char` where the code walks
  over characters).
* Fallible Python code (raising `ValueError`/`binascii.Error`) is modelled
  with `Except SriError`; each distinct raise site of the source gets its
  own `SriError` constructor, following the error taxonomy of the spec.
* The regular expression `_INTEGRITY_PATTERN` is embedded as a
  recursive-descent matcher.  The pattern is
  `[ \t]* (sha512|sha384|sha256) - ([a-zA-Z0-9+/]+[=]{0,2}) (\?[\041-\176]*)? [ \t]*`;
  since every component after `b64digest` can match the empty string, the
  greedy maximal-munch strategy of the embedding is exactly the behaviour of
  the backtracking regex engine (no backtracking step can ever be taken).
* `base64.standard_b64decode` is embedded in two stages, as in CPython:
  the `str`-to-bytes conversion rejects any non-ASCII character, and then
  `binascii.a2b_base64` runs in non-strict mode — ASCII characters outside
  the alphabet are skipped, a padding character that completes a quad
  terminates the decode, and a leftover partial quad at the end is an
  error.
-/

namespace SRI

/-- Error taxonomy: one constructor per distinct raise site of the source,
named as in the specification. -/
inductive SriError where
  /-- `Hash._check_algorithm`: `ValueError("Unsupported hash algorithm ...")`;
  carries the offending name and the recognised set. -/
  | unsupportedAlgorithm (algorithm : String) (recognised : List String)
  /-- `Hash._check_digest`: `ValueError("Digest length {l1} doesn't match
  algorithm digest length {l2}")`; carries actual and expected lengths. -/
  | digestLengthMismatch (actual expected : Nat)
  /-- A decode failure inside `base64.standard_b64decode`: either the
  `str`-to-bytes conversion `_bytes_from_decode_data` raising
  `ValueError` on a non-ASCII character, or `binascii.a2b_base64` raising
  `binascii.Error`; the spec surfaces both as `MalformedBase64`. -/
  | malformedBase64
  /-- `Hash.fromhashexpr`: `ValueError("Not a valid integrity value: ...")`;
  carries the offending input. -/
  | malformedIntegrityExpression (input : String)
  deriving DecidableEq, Repr

/-- `DEFAULT_ALGORITHM = 'sha384'` -/
def DEFAULT_ALGORITHM : String := "sha384"

/-- `RECOGNISED_ALGORITHMS = ('sha512', 'sha384', 'sha256')` -/
def RECOGNISED_ALGORITHMS : List String := ["sha512", "sha384", "sha256"]

/-- `hashlib.new(algorithm).digest_size` for the recognised algorithms
(the digest hasher collaborator; only ever consulted after
`_check_algorithm`, so the fallback 0 branch is unreachable). -/
def digestSize (algorithm : String) : Nat :=
  if algorithm = "sha512" then 64
  else if algorithm = "sha384" then 48
  else if algorithm = "sha256" then 32
  else 0

/-- The value object: the three fields set by `Hash.__new__`
(`_algorithm`, `_digest`, `_options`). -/
structure Hash where
  algorithm : String
  digest : List Nat
  options : String
  deriving DecidableEq, Repr

/-! ### Base64 codec (`base64.standard_b64encode` / `standard_b64decode`) -/

/-- The standard base64 alphabet, `table_b2a_base64[n]` for `n < 64`. -/
def b64char (n : Nat) : Char :=
  if n < 26 then Char.ofNat (65 + n)
  else if n < 52 then Char.ofNat (97 + (n - 26))
  else if n < 62 then Char.ofNat (48 + (n - 52))
  else if n = 62 then '+'
  else '/'

/-- Inverse alphabet lookup, `table_a2b_base64` (`none` for characters
outside the standard alphabet). -/
def b64table (c : Char) : Option Nat :=
  if 'A' ≤ c ∧ c ≤ 'Z' then some (c.toNat - 65)
  else if 'a' ≤ c ∧ c ≤ 'z' then some (c.toNat - 97 + 26)
  else if '0' ≤ c ∧ c ≤ '9' then some (c.toNat - 48 + 52)
  else if c = '+' then some 62
  else if c = '/' then some 63
  else none

/-- `base64.standard_b64encode`: three input bytes become four alphabet
characters; a final group of one or two bytes is padded with `=` to a
four-character group. -/
def b64encode : List Nat → List Char
  | [] => []
  | [b0] => [b64char (b0 / 4), b64char (b0 % 4 * 16), '=', '=']
  | [b0, b1] => [b64char (b0 / 4), b64char (b0 % 4 * 16 + b1 / 16),
                 b64char (b1 % 16 * 4), '=']
  | b0 :: b1 :: b2 :: rest =>
      b64char (b0 / 4) :: b64char (b0 % 4 * 16 + b1 / 16) ::
      b64char (b1 % 16 * 4 + b2 / 64) :: b64char (b2 % 64) :: b64encode rest

/-- CPython `binascii.a2b_base64` (non-strict mode), the engine behind
`base64.standard_b64decode`:
* a character outside the alphabet that is not `=` is skipped;
* `=` at quad position ≥ 2 counts as padding, and padding that completes a
  quad ends the decode successfully (anything after it is ignored);
* `=` at quad position 0 or 1 is skipped;
* input ending in the middle of a quad is a `binascii.Error`.
`quadPos`, `leftchar`, `pads` and the (reversed) output accumulator mirror
the C local variables. -/
def a2b : List Char → Nat → Nat → Nat → List Nat → Except SriError (List Nat)
  | [], quadPos, _, _, acc =>
      if quadPos = 0 then .ok acc.reverse else .error .malformedBase64
  | c :: rest, quadPos, leftchar, pads, acc =>
      if c = '=' then
        if 2 ≤ quadPos then
          if 4 ≤ quadPos + (pads + 1) then .ok acc.reverse
          else a2b rest quadPos leftchar (pads + 1) acc
        else a2b rest quadPos leftchar pads acc
      else
        match b64table c with
        | none => a2b rest quadPos leftchar pads acc
        | some v =>
          match quadPos with
          | 0 => a2b rest 1 v 0 acc
          | 1 => a2b rest 2 (v % 16) 0 ((leftchar * 4 + v / 16) :: acc)
          | 2 => a2b rest 3 (v % 4) 0 ((leftchar * 16 + v / 4) :: acc)
          | _ => a2b rest 0 0 0 ((leftchar * 64 + v) :: acc)

/-- The character class accepted by `str.encode('ascii')` (code points
below 128). -/
def isAsciiChar (c : Char) : Bool :=
  c.toNat < 128

/-- `base64.standard_b64decode(b64digest)`: Python first converts the
`str` argument to bytes via `_bytes_from_decode_data`, whose
`s.encode('ascii')` raises `ValueError("string argument should contain
only ASCII characters")` on any non-ASCII character; only then does
`binascii.a2b_base64` run. -/
def b64decode (s : List Char) : Except SriError (List Nat) :=
  if s.all isAsciiChar then a2b s 0 0 0 []
  else .error .malformedBase64

/-! ### Hash construction paths -/

/-- `Hash.__new__` (with `_check_algorithm` and `_check_digest` inlined in
source order; the `isinstance(digest, bytes)` check is discharged by the
typing of the embedding). -/
def hashNew (algorithm : String) (digest : List Nat) (options : String := "") :
    Except SriError Hash :=
  if algorithm ∉ RECOGNISED_ALGORITHMS then
    .error (.unsupportedAlgorithm algorithm RECOGNISED_ALGORITHMS)
  else if digest.length ≠ digestSize algorithm then
    .error (.digestLengthMismatch digest.length (digestSize algorithm))
  else
    .ok ⟨algorithm, digest, options⟩

/-- `Hash.fromhash`: decode the base64 digest, then delegate to the primary
constructor (a raised `binascii.Error` propagates). -/
def fromhash (algorithm : String) (b64digest : List Char)
    (options : String := "") : Except SriError Hash :=
  match b64decode b64digest with
  | .error e => .error e
  | .ok digest => hashNew algorithm digest options

/-- `Hash.b64digest` property: `base64.standard_b64encode(self._digest)`. -/
def b64digestOf (h : Hash) : String :=
  String.mk (b64encode h.digest)

/-- `Hash.__str__`. -/
def hashToString (h : Hash) : String :=
  if h.options = "" then h.algorithm ++ "-" ++ b64digestOf h
  else h.algorithm ++ "-" ++ b64digestOf h ++ "?" ++ h.options

/-- `Hash.__eq__` (restricted to the `isinstance(other, Hash)` branch, the
only one reachable in the typed embedding). -/
def pyEq (h1 h2 : Hash) : Bool :=
  h1.algorithm == h2.algorithm && h1.digest == h2.digest
    && h1.options == h2.options

/-- The tuple `(self.algorithm, self.digest, self.options)` that
`Hash.__hash__` feeds to Python's `hash`; the hash code is a pure function
of this key, so equal keys give equal hash codes. -/
def pyHashKey (h : Hash) : String × List Nat × String :=
  (h.algorithm, h.digest, h.options)

/-! ### The grammar matcher (`_INTEGRITY_PATTERN`) -/

/-- `[ \t]`, RFC 5234 WSP (space and tab only, not all whitespace). -/
def isWSP (c : Char) : Bool :=
  c == ' ' || c == '\t'

/-- The character class `[a-zA-Z0-9+/]` of the `b64digest` group. -/
def isB64Char (c : Char) : Bool :=
  ('a' ≤ c && c ≤ 'z') || ('A' ≤ c && c ≤ 'Z') || ('0' ≤ c && c ≤ '9')
    || c == '+' || c == '/'

/-- `[\041-\176]`, RFC 5234 VCHAR (visible ASCII `0x21`–`0x7E`). -/
def isVCHAR (c : Char) : Bool :=
  0x21 ≤ c.toNat && c.toNat ≤ 0x7E

/-- The alternation `sha512|sha384|sha256` (tried in source order; the
three literals are mutually exclusive at any one position). -/
def matchAlgorithm : List Char → Option (String × List Char)
  | 's' :: 'h' :: 'a' :: '5' :: '1' :: '2' :: rest => some ("sha512", rest)
  | 's' :: 'h' :: 'a' :: '3' :: '8' :: '4' :: rest => some ("sha384", rest)
  | 's' :: 'h' :: 'a' :: '2' :: '5' :: '6' :: rest => some ("sha256", rest)
  | _ => none

/-- One attempt of `_INTEGRITY_PATTERN` at the start of `s` (the semantics
of `re.match`): on success, the `algorithm`, `b64digest` and `options`
groups (the `options` group keeps its leading `?`, and is `[]` when the
optional group did not participate, as in `re.findall` tuples), plus the
unconsumed remainder of the string after the match. -/
def matchValue (s : List Char) :
    Option (String × List Char × List Char × List Char) :=
  let s1 := s.dropWhile isWSP
  match matchAlgorithm s1 with
  | none => none
  | some (alg, s2) =>
    match s2 with
    | '-' :: s3 =>
      let d := s3.takeWhile isB64Char
      if d.isEmpty then none
      else
        let s4 := s3.dropWhile isB64Char
        let p := (s4.takeWhile (· == '=')).take 2
        let s5 := s4.drop p.length
        match s5 with
        | '?' :: t =>
            some (alg, d ++ p, '?' :: t.takeWhile isVCHAR,
                  (t.dropWhile isVCHAR).dropWhile isWSP)
        | _ => some (alg, d ++ p, [], s5.dropWhile isWSP)
    | _ => none

/-- `Hash.fromhashexpr`: match the pattern at the start of the string
(`re.match`), strip the leading `?` from the options group (`options[1:]`,
which is also `''[1:] = ''` when the group is absent), and delegate to
`Hash.fromhash`. -/
def fromhashexpr (s : String) : Except SriError Hash :=
  match matchValue s.data with
  | none => .error (.malformedIntegrityExpression s)
  | some (algorithm, b64digest, options, _) =>
      fromhash algorithm b64digest (String.mk (options.drop 1))

/-- `_INTEGRITY_PATTERN.findall`: scan left to right for the leftmost
match, record its group tuple, and continue after the matched text.  The
pattern cannot match the empty string (it needs at least `shaNNN-` and one
digest character), so every successful match consumes at least seven
characters while the fuel decreases by one; starting from
`fuel = length + 1` the fuel can therefore never run out. -/
def findallAux : Nat → List Char → List (String × List Char × List Char)
  | 0, _ => []
  | fuel + 1, s =>
    match matchValue s with
    | some (alg, dg, opts, rest) => (alg, dg, opts) :: findallAux fuel rest
    | none =>
      match s with
      | [] => []
      | _ :: cs => findallAux fuel cs

/-- `_INTEGRITY_PATTERN.findall(integrity)`. -/
def findall (s : List Char) : List (String × List Char × List Char) :=
  findallAux (s.length + 1) s

/-! ### Collection operations -/

/-- The sort key `RECOGNISED_ALGORITHMS.index(t[0])` (0 for `sha512`,
1 for `sha384`, 2 for `sha256`; the fallback 3 stands for the
`ValueError` of `tuple.index`, unreachable because every `findall` match
carries a recognised name). -/
def algIndex (algorithm : String) : Nat :=
  if algorithm = "sha512" then 0
  else if algorithm = "sha384" then 1
  else if algorithm = "sha256" then 2
  else 3

/-- The comparison realising `matches.sort(key=lambda t:
RECOGNISED_ALGORITHMS.index(t[0]))`.  Python's `list.sort` is a stable
sort by this key; a stable sort's output is uniquely determined by the
key, so the stable `List.insertionSort` below computes the same list. -/
def tupleLe (t u : String × List Char × List Char) : Prop :=
  algIndex t.1 ≤ algIndex u.1

instance : DecidableRel tupleLe := fun _ _ => Nat.decLe _ _

instance : IsTotal (String × List Char × List Char) tupleLe :=
  ⟨fun t u => Nat.le_total (algIndex t.1) (algIndex u.1)⟩

instance : IsTrans (String × List Char × List Char) tupleLe :=
  ⟨fun _ _ _ h1 h2 => Nat.le_trans h1 h2⟩

/-- The list comprehension `[Hash.fromhash(*match) for match in matches]`:
construct each element in order, propagating the first error.  Note that
`parse` hands the raw `options` group (leading `?` included) to
`Hash.fromhash` — unlike `Hash.fromhashexpr`, it never strips the `?`. -/
def fromhashTuple (t : String × List Char × List Char) : Except SriError Hash :=
  fromhash t.1 t.2.1 (String.mk t.2.2)

/-- Error-propagating `List.map`, the evaluation order of a Python list
comprehension over a fallible body. -/
def mapE (f : α → Except SriError β) : List α → Except SriError (List β)
  | [] => .ok []
  | x :: xs =>
    match f x with
    | .error e => .error e
    | .ok y =>
      match mapE f xs with
      | .error e => .error e
      | .ok ys => .ok (y :: ys)

/-- `parse(integrity)`. -/
def parse (integrity : String) : Except SriError (List Hash) :=
  let ms := findall integrity.data
  mapE fromhashTuple (List.insertionSort tupleLe ms)

/-- The list of constructed values in original left-to-right discovery
order (the `findall` order before `matches.sort`); used to state the
stability part of the ordering claim. -/
def parseUnsorted (integrity : String) : Except SriError (List Hash) :=
  mapE fromhashTuple (findall integrity.data)

/-- `Hash.fromresource` (the digest hasher `hashlib.new(algorithm,
resource).digest()` is the external collaborator of spec §2, passed in as
the function `hashD`). -/
def fromresource (hashD : String → List Nat → List Nat) (resource : List Nat)
    (algorithm : String := DEFAULT_ALGORITHM) (options : String := "") :
    Except SriError Hash :=
  if algorithm ∉ RECOGNISED_ALGORITHMS then
    .error (.unsupportedAlgorithm algorithm RECOGNISED_ALGORITHMS)
  else
    hashNew algorithm (hashD algorithm resource) options

/-- `generate(data, algorithms=(DEFAULT_ALGORITHM,))` (the generator is
consumed into a list). -/
def generate (hashD : String → List Nat → List Nat) (data : List Nat)
    (algorithms : List String := [DEFAULT_ALGORITHM]) :
    Except SriError (List Hash) :=
  mapE (fun algorithm => fromresource hashD data algorithm) algorithms

/-- `render(data, algorithms=(DEFAULT_ALGORITHM,), seperator=' ')`. -/
def render (hashD : String → List Nat → List Nat) (data : List Nat)
    (algorithms : List String := [DEFAULT_ALGORITHM])
    (seperator : String := " ") : Except SriError String :=
  match generate hashD data algorithms with
  | .error e => .error e
  | .ok hashes => .ok (String.intercalate seperator (hashes.map hashToString))

/-! ### Lemmas about the base64 codec -/

theorem b64table_b64char : ∀ n < 64, b64table (b64char n) = some n := by decide

theorem b64char_ne_pad : ∀ n < 64, b64char n ≠ '=' := by decide

theorem isB64Char_b64char : ∀ n < 64, isB64Char (b64char n) = true := by decide

theorem a2b_data0 {c : Char} {v : Nat} (hc : b64table c = some v)
    (hne : c ≠ '=') (rest : List Char) (l p : Nat) (acc : List Nat) :
    a2b (c :: rest) 0 l p acc = a2b rest 1 v 0 acc := by
  simp [a2b, hne, hc]

theorem a2b_data1 {c : Char} {v : Nat} (hc : b64table c = some v)
    (hne : c ≠ '=') (rest : List Char) (l p : Nat) (acc : List Nat) :
    a2b (c :: rest) 1 l p acc = a2b rest 2 (v % 16) 0 ((l * 4 + v / 16) :: acc) := by
  simp [a2b, hne, hc]

theorem a2b_data2 {c : Char} {v : Nat} (hc : b64table c = some v)
    (hne : c ≠ '=') (rest : List Char) (l p : Nat) (acc : List Nat) :
    a2b (c :: rest) 2 l p acc = a2b rest 3 (v % 4) 0 ((l * 16 + v / 4) :: acc) := by
  simp [a2b, hne, hc]

theorem a2b_data3 {c : Char} {v : Nat} (hc : b64table c = some v)
    (hne : c ≠ '=') (rest : List Char) (l p : Nat) (acc : List Nat) :
    a2b (c :: rest) 3 l p acc = a2b rest 0 0 0 ((l * 64 + v) :: acc) := by
  simp [a2b, hne, hc]

theorem a2b_pad2_first (rest : List Char) (l : Nat) (acc : List Nat) :
    a2b ('=' :: rest) 2 l 0 acc = a2b rest 2 l 1 acc := by
  simp [a2b]

theorem a2b_pad2_second (rest : List Char) (l : Nat) (acc : List Nat) :
    a2b ('=' :: rest) 2 l 1 acc = .ok acc.reverse := by
  simp [a2b]

theorem a2b_pad3 (rest : List Char) (l : Nat) (acc : List Nat) :
    a2b ('=' :: rest) 3 l 0 acc = .ok acc.reverse := by
  simp [a2b]

/-- Decoding the canonical base64 encoding of a byte string recovers the
bytes (for any incoming decoder state at quad position 0). -/
theorem a2b_b64encode (bs : List Nat) (hb : ∀ b ∈ bs, b < 256)
    (l p : Nat) (acc : List Nat) :
    a2b (b64encode bs) 0 l p acc = .ok (acc.reverse ++ bs) := by
  match bs with
  | [] => simp [b64encode, a2b]
  | [b0] =>
    have h0 : b0 < 256 := hb b0 (by simp)
    rw [show b64encode [b0]
          = [b64char (b0 / 4), b64char (b0 % 4 * 16), '=', '='] from rfl]
    rw [a2b_data0 (b64table_b64char _ (by omega)) (b64char_ne_pad _ (by omega)),
        a2b_data1 (b64table_b64char _ (by omega)) (b64char_ne_pad _ (by omega)),
        a2b_pad2_first, a2b_pad2_second]
    have e1 : b0 / 4 * 4 + b0 % 4 * 16 / 16 = b0 := by omega
    rw [e1]; simp
  | [b0, b1] =>
    have h0 : b0 < 256 := hb b0 (by simp)
    have h1 : b1 < 256 := hb b1 (by simp)
    rw [show b64encode [b0, b1]
          = [b64char (b0 / 4), b64char (b0 % 4 * 16 + b1 / 16),
             b64char (b1 % 16 * 4), '='] from rfl]
    rw [a2b_data0 (b64table_b64char _ (by omega)) (b64char_ne_pad _ (by omega)),
        a2b_data1 (b64table_b64char _ (by omega)) (b64char_ne_pad _ (by omega)),
        a2b_data2 (b64table_b64char _ (by omega)) (b64char_ne_pad _ (by omega)),
        a2b_pad3]
    have e1 : b0 / 4 * 4 + (b0 % 4 * 16 + b1 / 16) / 16 = b0 := by omega
    have e2 : (b0 % 4 * 16 + b1 / 16) % 16 * 16 + b1 % 16 * 4 / 4 = b1 := by
      omega
    rw [e1, e2]; simp
  | b0 :: b1 :: b2 :: rest =>
    have h0 : b0 < 256 := hb b0 (by simp)
    have h1 : b1 < 256 := hb b1 (by simp)
    have h2 : b2 < 256 := hb b2 (by simp)
    rw [show b64encode (b0 :: b1 :: b2 :: rest)
          = b64char (b0 / 4) :: b64char (b0 % 4 * 16 + b1 / 16) ::
            b64char (b1 % 16 * 4 + b2 / 64) :: b64char (b2 % 64) ::
            b64encode rest from rfl]
    rw [a2b_data0 (b64table_b64char _ (by omega)) (b64char_ne_pad _ (by omega)),
        a2b_data1 (b64table_b64char _ (by omega)) (b64char_ne_pad _ (by omega)),
        a2b_data2 (b64table_b64char _ (by omega)) (b64char_ne_pad _ (by omega)),
        a2b_data3 (b64table_b64char _ (by omega)) (b64char_ne_pad _ (by omega))]
    have e1 : b0 / 4 * 4 + (b0 % 4 * 16 + b1 / 16) / 16 = b0 := by omega
    have e2 : (b0 % 4 * 16 + b1 / 16) % 16 * 16 + (b1 % 16 * 4 + b2 / 64) / 4
        = b1 := by omega
    have e3 : (b1 % 16 * 4 + b2 / 64) % 4 * 64 + b2 % 64 = b2 := by omega
    rw [e1, e2, e3,
        a2b_b64encode rest (fun b hbm => hb b (by simp [hbm])) 0 0]
    simp

theorem b64char_ascii : ∀ n < 64, isAsciiChar (b64char n) = true := by decide

/-- The canonical encoding of a byte string is pure ASCII, so it always
passes the `str.encode('ascii')` precheck of `standard_b64decode`. -/
theorem b64encode_ascii (bs : List Nat) (hb : ∀ b ∈ bs, b < 256) :
    ∀ c ∈ b64encode bs, isAsciiChar c = true := by
  match bs with
  | [] => intro c hc; simp [b64encode] at hc
  | [b0] =>
    have h0 : b0 < 256 := hb b0 (by simp)
    intro c hc
    rw [show b64encode [b0]
          = [b64char (b0 / 4), b64char (b0 % 4 * 16), '=', '='] from rfl] at hc
    simp only [List.mem_cons, List.not_mem_nil, or_false] at hc
    rcases hc with rfl | rfl | rfl | rfl
    · exact b64char_ascii _ (by omega)
    · exact b64char_ascii _ (by omega)
    · decide
    · decide
  | [b0, b1] =>
    have h0 : b0 < 256 := hb b0 (by simp)
    have h1 : b1 < 256 := hb b1 (by simp)
    intro c hc
    rw [show b64encode [b0, b1]
          = [b64char (b0 / 4), b64char (b0 % 4 * 16 + b1 / 16),
             b64char (b1 % 16 * 4), '='] from rfl] at hc
    simp only [List.mem_cons, List.not_mem_nil, or_false] at hc
    rcases hc with rfl | rfl | rfl | rfl
    · exact b64char_ascii _ (by omega)
    · exact b64char_ascii _ (by omega)
    · exact b64char_ascii _ (by omega)
    · decide
  | b0 :: b1 :: b2 :: rest =>
    have h0 : b0 < 256 := hb b0 (by simp)
    have h1 : b1 < 256 := hb b1 (by simp)
    have h2 : b2 < 256 := hb b2 (by simp)
    intro c hc
    rw [show b64encode (b0 :: b1 :: b2 :: rest)
          = b64char (b0 / 4) :: b64char (b0 % 4 * 16 + b1 / 16) ::
            b64char (b1 % 16 * 4 + b2 / 64) :: b64char (b2 % 64) ::
            b64encode rest from rfl] at hc
    simp only [List.mem_cons] at hc
    rcases hc with rfl | rfl | rfl | rfl | h
    · exact b64char_ascii _ (by omega)
    · exact b64char_ascii _ (by omega)
    · exact b64char_ascii _ (by omega)
    · exact b64char_ascii _ (by omega)
    · exact b64encode_ascii rest (fun b hbm => hb b (by simp [hbm])) c h

/-- `b64decode` inverts `b64encode` on byte strings. -/
theorem b64decode_b64encode (bs : List Nat) (hb : ∀ b ∈ bs, b < 256) :
    b64decode (b64encode bs) = .ok bs := by
  unfold b64decode
  rw [if_pos (List.all_eq_true.mpr (b64encode_ascii bs hb))]
  simpa using a2b_b64encode bs hb 0 0 []

/-! ### List scanning helpers -/

theorem takeWhile_all_append {p : Char → Bool} {a : List Char}
    (ha : ∀ c ∈ a, p c = true) (b : List Char) :
    (a ++ b).takeWhile p = a ++ b.takeWhile p := by
  induction a with
  | nil => simp
  | cons c cs ih =>
    have hc : p c = true := ha c (by simp)
    simp only [List.cons_append, List.takeWhile_cons, hc, if_true]
    rw [ih (fun x hx => ha x (by simp [hx]))]

theorem dropWhile_all_append {p : Char → Bool} {a : List Char}
    (ha : ∀ c ∈ a, p c = true) (b : List Char) :
    (a ++ b).dropWhile p = b.dropWhile p := by
  induction a with
  | nil => simp
  | cons c cs ih =>
    have hc : p c = true := ha c (by simp)
    simp only [List.cons_append, List.dropWhile_cons, hc, if_true]
    exact ih (fun x hx => ha x (by simp [hx]))

theorem takeWhile_all {p : Char → Bool} {a : List Char}
    (ha : ∀ c ∈ a, p c = true) : a.takeWhile p = a := by
  simpa using takeWhile_all_append ha []

theorem dropWhile_all {p : Char → Bool} {a : List Char}
    (ha : ∀ c ∈ a, p c = true) : a.dropWhile p = [] := by
  simpa using dropWhile_all_append ha []

/-! ### Characterising the matcher on canonical encodings -/

/-- Structure of a canonical base64 encoding: a run of alphabet characters
followed by zero, one or two padding characters. -/
theorem b64encode_split (bs : List Nat) (hb : ∀ b ∈ bs, b < 256) :
    ∃ d p, b64encode bs = d ++ p ∧ (∀ c ∈ d, isB64Char c = true)
      ∧ (p = [] ∨ p = ['='] ∨ p = ['=', '=']) ∧ (bs ≠ [] → d ≠ []) := by
  match bs with
  | [] => exact ⟨[], [], by simp [b64encode], by simp, by simp, by simp⟩
  | [b0] =>
    have h0 : b0 < 256 := hb b0 (by simp)
    refine ⟨[b64char (b0 / 4), b64char (b0 % 4 * 16)], ['=', '='], rfl, ?_,
      by simp, by simp⟩
    intro c hc
    simp only [List.mem_cons, List.not_mem_nil, or_false] at hc
    rcases hc with rfl | rfl <;> exact isB64Char_b64char _ (by omega)
  | [b0, b1] =>
    have h0 : b0 < 256 := hb b0 (by simp)
    have h1 : b1 < 256 := hb b1 (by simp)
    refine ⟨[b64char (b0 / 4), b64char (b0 % 4 * 16 + b1 / 16),
             b64char (b1 % 16 * 4)], ['='], rfl, ?_, by simp, by simp⟩
    intro c hc
    simp only [List.mem_cons, List.not_mem_nil, or_false] at hc
    rcases hc with rfl | rfl | rfl <;> exact isB64Char_b64char _ (by omega)
  | b0 :: b1 :: b2 :: rest =>
    have h0 : b0 < 256 := hb b0 (by simp)
    have h1 : b1 < 256 := hb b1 (by simp)
    have h2 : b2 < 256 := hb b2 (by simp)
    obtain ⟨d, p, henc, hdall, hp, _⟩ :=
      b64encode_split rest (fun b hbm => hb b (by simp [hbm]))
    refine ⟨b64char (b0 / 4) :: b64char (b0 % 4 * 16 + b1 / 16) ::
            b64char (b1 % 16 * 4 + b2 / 64) :: b64char (b2 % 64) :: d, p,
      ?_, ?_, hp, by simp⟩
    · show b64char (b0 / 4) :: b64char (b0 % 4 * 16 + b1 / 16) ::
            b64char (b1 % 16 * 4 + b2 / 64) :: b64char (b2 % 64) ::
            b64encode rest = _
      simp [henc]
    · intro c hc
      simp only [List.mem_cons] at hc
      rcases hc with rfl | rfl | rfl | rfl | h
      · exact isB64Char_b64char _ (by omega)
      · exact isB64Char_b64char _ (by omega)
      · exact isB64Char_b64char _ (by omega)
      · exact isB64Char_b64char _ (by omega)
      · exact hdall c h

/-- How one attempt of the pattern behaves on a decomposed canonical
expression: a prefix accepted by the `algorithm` alternation and the `-`
separator, a non-empty run of base64 characters, up to two `=`, and then
either nothing or a `?` followed by visible characters.  The whole string
is consumed and the three groups are as the grammar assigns them. -/
theorem matchValue_of_parts (s : List Char) (alg : String)
    (d p tail og : List Char)
    (hMA : matchAlgorithm (s.dropWhile isWSP) = some (alg, '-' :: (d ++ (p ++ tail))))
    (hd : d ≠ []) (hdall : ∀ c ∈ d, isB64Char c = true)
    (hp : p = [] ∨ p = ['='] ∨ p = ['=', '='])
    (htail : (tail = [] ∧ og = []) ∨
      (∃ opts, tail = '?' :: opts ∧ og = '?' :: opts ∧
        ∀ c ∈ opts, isVCHAR c = true)) :
    matchValue s = some (alg, d ++ p, og, []) := by
  have htail' : tail.takeWhile isB64Char = [] ∧ tail.takeWhile (· == '=') = [] := by
    rcases htail with ⟨ht, _⟩ | ⟨opts, ht, _, _⟩ <;> subst ht <;>
      simp [List.takeWhile_cons, (by decide : isB64Char '?' = false)]
  have hbpt : (p ++ tail).takeWhile isB64Char = [] := by
    rcases hp with h | h | h <;> subst h <;>
      simp [List.takeWhile_cons, (by decide : isB64Char '=' = false), htail'.1]
  have htake : (d ++ (p ++ tail)).takeWhile isB64Char = d := by
    rw [takeWhile_all_append hdall, hbpt, List.append_nil]
  have hdpt : (p ++ tail).dropWhile isB64Char = p ++ tail := by
    rcases hp with h | h | h <;> subst h
    · rcases htail with ⟨ht, _⟩ | ⟨opts, ht, _, _⟩ <;> subst ht <;>
        simp [List.dropWhile_cons, (by decide : isB64Char '?' = false)]
    · simp [List.dropWhile_cons, (by decide : isB64Char '=' = false)]
    · simp [List.dropWhile_cons, (by decide : isB64Char '=' = false)]
  have hdrop : (d ++ (p ++ tail)).dropWhile isB64Char = p ++ tail := by
    rw [dropWhile_all_append hdall, hdpt]
  have hpads : ((p ++ tail).takeWhile (· == '=')).take 2 = p := by
    rcases hp with h | h | h <;> subst h <;>
      simp [List.takeWhile_cons, htail'.2]
  have hdroppads : (p ++ tail).drop p.length = tail := by
    rcases hp with h | h | h <;> subst h <;> simp
  simp only [matchValue, hMA, htake, hdrop]
  rw [if_neg (by simpa [List.isEmpty_iff] using hd)]
  rw [hpads, hdroppads]
  rcases htail with ⟨ht, hog⟩ | ⟨opts, ht, hog, hopts⟩
  · subst ht; subst hog; rfl
  · subst ht; subst hog
    simp [takeWhile_all hopts, dropWhile_all hopts]

/-- A recognised algorithm and a digest of the right length make
`Hash.fromhash` succeed on the canonical encoding of the digest. -/
theorem fromhash_ok (a : String) (bs : List Nat) (opts : String)
    (hbytes : ∀ b ∈ bs, b < 256)
    (ha : a ∈ RECOGNISED_ALGORITHMS) (hl : bs.length = digestSize a) :
    fromhash a (b64encode bs) opts = .ok ⟨a, bs, opts⟩ := by
  unfold fromhash
  rw [show b64decode (b64encode bs) = .ok bs from b64decode_b64encode bs hbytes]
  show hashNew a bs opts = Except.ok ⟨a, bs, opts⟩
  unfold hashNew
  rw [if_neg (not_not_intro ha), if_neg (not_not_intro hl)]

theorem sha512_data : "sha512".data = ['s', 'h', 'a', '5', '1', '2'] := rfl

theorem sha384_data : "sha384".data = ['s', 'h', 'a', '3', '8', '4'] := rfl

theorem sha256_data : "sha256".data = ['s', 'h', 'a', '2', '5', '6'] := rfl

/-- **C1** (round-trip law): for every value built from a recognised
algorithm, a digest of exactly that algorithm's size (in bytes), and an
options string of visible-ASCII characters (the default `''` included),
parsing the value's canonical text encoding returns an equal value:
`Hash.fromhashexpr(str(value)) == value`. -/
theorem fromhashexpr_roundtrip (h : Hash)
    (halg : h.algorithm ∈ RECOGNISED_ALGORITHMS)
    (hlen : h.digest.length = digestSize h.algorithm)
    (hbytes : ∀ b ∈ h.digest, b < 256)
    (hopts : ∀ c ∈ h.options.data, isVCHAR c = true) :
    fromhashexpr (hashToString h) = .ok h := by
  obtain ⟨a, dg, o⟩ := h
  simp only at halg hlen hbytes hopts ⊢
  obtain ⟨d, p, henc, hdall, hp, hdne⟩ := b64encode_split dg hbytes
  have halg' : a = "sha512" ∨ a = "sha384" ∨ a = "sha256" := by
    simpa [RECOGNISED_ALGORITHMS] using halg
  have hdig_ne : dg ≠ [] := by
    intro hn
    rcases halg' with h1 | h1 | h1 <;> rw [hn, h1] at hlen <;>
      simp [digestSize] at hlen
  have hd : d ≠ [] := hdne hdig_ne
  have hnotin : ¬a ∉ RECOGNISED_ALGORITHMS := not_not_intro halg
  by_cases ho : o = ""
  · have hsdata : (hashToString ⟨a, dg, o⟩).data
        = a.data ++ '-' :: (d ++ (p ++ [])) := by
      simp [hashToString, ho, b64digestOf, String.data_append, henc,
        (rfl : "-".data = ['-'])]
    have hmv : matchValue (hashToString ⟨a, dg, o⟩).data
        = some (a, d ++ p, [], []) := by
      refine matchValue_of_parts _ a d p [] [] ?_ hd hdall hp (Or.inl ⟨rfl, rfl⟩)
      rw [hsdata]
      rcases halg' with h1 | h1 | h1 <;> subst h1 <;>
        simp [sha512_data, sha384_data, sha256_data, List.dropWhile_cons,
          (by decide : isWSP 's' = false), matchAlgorithm]
    subst ho
    simp only [fromhashexpr, hmv]
    rw [show d ++ p = b64encode dg from henc.symm]
    exact fromhash_ok a dg "" hbytes halg hlen
  · have hsdata : (hashToString ⟨a, dg, o⟩).data
        = a.data ++ '-' :: (d ++ (p ++ ('?' :: o.data))) := by
      simp [hashToString, ho, b64digestOf, String.data_append, henc,
        (rfl : "-".data = ['-']), (rfl : "?".data = ['?'])]
    have hmv : matchValue (hashToString ⟨a, dg, o⟩).data
        = some (a, d ++ p, '?' :: o.data, []) := by
      refine matchValue_of_parts _ a d p ('?' :: o.data) ('?' :: o.data) ?_
        hd hdall hp (Or.inr ⟨o.data, rfl, rfl, hopts⟩)
      rw [hsdata]
      rcases halg' with h1 | h1 | h1 <;> subst h1 <;>
        simp [sha512_data, sha384_data, sha256_data, List.dropWhile_cons,
          (by decide : isWSP 's' = false), matchAlgorithm]
    simp only [fromhashexpr, hmv]
    rw [show d ++ p = b64encode dg from henc.symm]
    exact fromhash_ok a dg o hbytes halg hlen

/-! ### Lemmas about `mapE` -/

theorem mapE_eq_ok_iff {α β : Type} {f : α → Except SriError β} :
    ∀ {l : List α} {r : List β},
    mapE f l = .ok r ↔ List.Forall₂ (fun x y => f x = .ok y) l r := by
  intro l
  induction l with
  | nil =>
    intro r
    constructor
    · intro h
      simp only [mapE] at h
      injection h with h
      subst h
      exact List.Forall₂.nil
    · intro h
      cases h
      rfl
  | cons x xs ih =>
    intro r
    constructor
    · intro h
      simp only [mapE] at h
      cases hfx : f x with
      | error e => rw [hfx] at h; cases h
      | ok y =>
        rw [hfx] at h
        cases hxs : mapE f xs with
        | error e => rw [hxs] at h; cases h
        | ok ys =>
          rw [hxs] at h
          injection h with h
          subst h
          exact List.Forall₂.cons hfx (ih.mp hxs)
    · intro h
      cases h with
      | cons hfx hrest =>
        simp only [mapE]
        rw [hfx, ih.mpr hrest]

theorem mapE_eq_error {α β : Type} {f : α → Except SriError β} :
    ∀ {l : List α} {e : SriError},
    mapE f l = .error e → ∃ x ∈ l, f x = .error e := by
  intro l
  induction l with
  | nil => intro e h; simp [mapE] at h
  | cons x xs ih =>
    intro e h
    simp only [mapE] at h
    cases hfx : f x with
    | error e' =>
      rw [hfx] at h
      injection h with h
      subst h
      exact ⟨x, by simp, hfx⟩
    | ok y =>
      rw [hfx] at h
      cases hxs : mapE f xs with
      | error e' =>
        rw [hxs] at h
        injection h with h
        subst h
        obtain ⟨x', hmem, hx'⟩ := ih hxs
        exact ⟨x', by simp [hmem], hx'⟩
      | ok ys => rw [hxs] at h; cases h

theorem mapE_ok_of_forall {α β : Type} {f : α → Except SriError β} :
    ∀ {l : List α}, (∀ x ∈ l, ∃ y, f x = .ok y) → ∃ r, mapE f l = .ok r := by
  intro l
  induction l with
  | nil => intro _; exact ⟨[], rfl⟩
  | cons x xs ih =>
    intro h
    obtain ⟨y, hy⟩ := h x (by simp)
    obtain ⟨ys, hys⟩ := ih (fun x' hx' => h x' (by simp [hx']))
    exact ⟨y :: ys, by simp only [mapE]; rw [hy, hys]⟩

/-! ### Lemmas about `List.Forall₂` -/

theorem forall₂_mem_left {α β : Type} {R : α → β → Prop} :
    ∀ {l : List α} {r : List β}, List.Forall₂ R l r →
    ∀ x ∈ l, ∃ y ∈ r, R x y := by
  intro l r h
  induction h with
  | nil => intro x hx; cases hx
  | cons hR _ ih =>
    intro x hx
    rcases List.mem_cons.mp hx with rfl | hx'
    · exact ⟨_, by simp, hR⟩
    · obtain ⟨y, hy, hRy⟩ := ih x hx'
      exact ⟨y, by simp [hy], hRy⟩

theorem forall₂_mem_right {α β : Type} {R : α → β → Prop} :
    ∀ {l : List α} {r : List β}, List.Forall₂ R l r →
    ∀ y ∈ r, ∃ x ∈ l, R x y := by
  intro l r h
  induction h with
  | nil => intro y hy; cases hy
  | cons hR _ ih =>
    intro y hy
    rcases List.mem_cons.mp hy with rfl | hy'
    · exact ⟨_, by simp, hR⟩
    · obtain ⟨x, hx, hRx⟩ := ih y hy'
      exact ⟨x, by simp [hx], hRx⟩

theorem forall₂_right_unique {α β : Type} {R : α → β → Prop}
    (hR : ∀ a b b', R a b → R a b' → b = b') :
    ∀ {l : List α} {r r' : List β},
    List.Forall₂ R l r → List.Forall₂ R l r' → r = r' := by
  intro l r r' h
  induction h generalizing r' with
  | nil => intro h'; cases h'; rfl
  | cons hab htail ih =>
    intro h'
    cases h' with
    | cons hab' htail' => rw [hR _ _ _ hab hab', ih htail']

theorem forall₂_filter {α β : Type} {R : α → β → Prop}
    {p : α → Bool} {q : β → Bool} (hpq : ∀ a b, R a b → p a = q b) :
    ∀ {l : List α} {r : List β}, List.Forall₂ R l r →
    List.Forall₂ R (l.filter p) (r.filter q) := by
  intro l r h
  induction h with
  | nil => exact List.Forall₂.nil
  | cons hab htail ih =>
    rename_i a b l' r'
    by_cases hpa : p a = true
    · have hqb : q b = true := (hpq a b hab) ▸ hpa
      simp only [List.filter_cons, hpa, hqb, if_true]
      exact List.Forall₂.cons hab ih
    · have hqb : ¬q b = true := fun hq => hpa ((hpq a b hab).symm ▸ hq)
      simp only [List.filter_cons, if_neg hpa, if_neg hqb]
      exact ih

theorem forall₂_pairwise {α β : Type} {R : α → β → Prop}
    {P : α → α → Prop} {Q : β → β → Prop}
    (hPQ : ∀ a b a' b', R a a' → R b b' → P a b → Q a' b') :
    ∀ {l : List α} {r : List β}, List.Forall₂ R l r →
    l.Pairwise P → r.Pairwise Q := by
  intro l r h
  induction h with
  | nil => intro _; exact List.Pairwise.nil
  | cons hab htail ih =>
    intro hp
    rcases List.pairwise_cons.mp hp with ⟨hhead, htl⟩
    refine List.pairwise_cons.mpr ⟨?_, ih htl⟩
    intro b' hb'
    obtain ⟨a', ha', hRa'⟩ := forall₂_mem_right htail b' hb'
    exact hPQ _ a' _ b' hab hRa' (hhead a' ha')

/-! ### Error shapes of the construction paths -/

theorem a2b_error_shape {e : SriError} :
    ∀ (s : List Char) (q l p : Nat) (acc : List Nat),
    a2b s q l p acc = .error e → e = .malformedBase64 := by
  intro s
  induction s with
  | nil =>
    intro q l p acc h
    by_cases hq : q = 0
    · simp [a2b, hq] at h
    · simp only [a2b, if_neg hq] at h
      injection h with h
      exact h.symm
  | cons c cs ih =>
    intro q l p acc h
    simp only [a2b] at h
    by_cases hc : c = '='
    · simp only [if_pos hc] at h
      by_cases h2 : 2 ≤ q
      · simp only [if_pos h2] at h
        by_cases h4 : 4 ≤ q + (p + 1)
        · simp only [if_pos h4] at h; cases h
        · simp only [if_neg h4] at h; exact ih _ _ _ _ h
      · simp only [if_neg h2] at h; exact ih _ _ _ _ h
    · simp only [if_neg hc] at h
      cases ht : b64table c with
      | none => rw [ht] at h; exact ih _ _ _ _ h
      | some v =>
        rw [ht] at h
        rcases q with _ | _ | _ | q <;> exact ih _ _ _ _ h

/-- Every `standard_b64decode` failure — the ASCII precheck included —
surfaces as `MalformedBase64`. -/
theorem b64decode_error_shape {s : List Char} {e : SriError}
    (h : b64decode s = .error e) : e = .malformedBase64 := by
  unfold b64decode at h
  by_cases hall : s.all isAsciiChar = true
  · rw [if_pos hall] at h
    exact a2b_error_shape _ _ _ _ _ h
  · rw [if_neg hall] at h
    injection h with h
    exact h.symm

theorem hashNew_ok_iff {a : String} {dg : List Nat} {o : String} :
    (∃ h, hashNew a dg o = .ok h) ↔
      a ∈ RECOGNISED_ALGORITHMS ∧ dg.length = digestSize a := by
  constructor
  · rintro ⟨h, hok⟩
    unfold hashNew at hok
    by_cases h1 : a ∉ RECOGNISED_ALGORITHMS
    · rw [if_pos h1] at hok; cases hok
    · rw [if_neg h1] at hok
      by_cases h2 : dg.length ≠ digestSize a
      · rw [if_pos h2] at hok; cases hok
      · exact ⟨not_not.mp h1, not_not.mp h2⟩
  · rintro ⟨h1, h2⟩
    refine ⟨⟨a, dg, o⟩, ?_⟩
    unfold hashNew
    rw [if_neg (not_not_intro h1), if_neg (not_not_intro h2)]

theorem hashNew_ok_inj {a : String} {dg : List Nat} {o : String} {h : Hash}
    (hok : hashNew a dg o = .ok h) : h = ⟨a, dg, o⟩ := by
  unfold hashNew at hok
  by_cases h1 : a ∉ RECOGNISED_ALGORITHMS
  · rw [if_pos h1] at hok; cases hok
  · rw [if_neg h1] at hok
    by_cases h2 : dg.length ≠ digestSize a
    · rw [if_pos h2] at hok; cases hok
    · rw [if_neg h2] at hok
      injection hok with hok
      exact hok.symm

theorem fromhash_ok_fields {a : String} {b : List Char} {o : String} {h : Hash}
    (hok : fromhash a b o = .ok h) :
    h.algorithm = a ∧ h.digest.length = digestSize a ∧ h.options = o ∧
      a ∈ RECOGNISED_ALGORITHMS ∧ b64decode b = .ok h.digest := by
  unfold fromhash at hok
  cases hdec : b64decode b with
  | error e => rw [hdec] at hok; cases hok
  | ok bs =>
    rw [hdec] at hok
    have hh := hashNew_ok_inj hok
    subst hh
    have hmem := hashNew_ok_iff.mp ⟨_, hok⟩
    exact ⟨rfl, hmem.2, rfl, hmem.1, rfl⟩

/-- `Hash.fromhash` never reports a grammar mismatch: its errors come from
the base64 decoder or the primary constructor only. -/
theorem fromhash_error_shape {a : String} {b : List Char} {o : String}
    {e : SriError} (herr : fromhash a b o = .error e) :
    e = .malformedBase64 ∨
      (∃ alg rec, e = .unsupportedAlgorithm alg rec) ∨
      (∃ l1 l2, e = .digestLengthMismatch l1 l2) := by
  unfold fromhash at herr
  cases hdec : b64decode b with
  | error e' =>
    rw [hdec] at herr
    injection herr with herr
    subst herr
    exact Or.inl (b64decode_error_shape hdec)
  | ok bs =>
    rw [hdec] at herr
    have herr2 : hashNew a bs o = Except.error e := herr
    unfold hashNew at herr2
    by_cases h1 : a ∉ RECOGNISED_ALGORITHMS
    · rw [if_pos h1] at herr2
      injection herr2 with herr2
      exact Or.inr (Or.inl ⟨_, _, herr2.symm⟩)
    · rw [if_neg h1] at herr2
      by_cases h2 : bs.length ≠ digestSize a
      · rw [if_pos h2] at herr2
        injection herr2 with herr2
        exact Or.inr (Or.inr ⟨_, _, herr2.symm⟩)
      · rw [if_neg h2] at herr2; cases herr2

/-- When the algorithm is recognised, a `Hash.fromhash` failure is a decode
failure or a digest length mismatch. -/
theorem fromhash_error_recognised {a : String} {b : List Char} {o : String}
    {e : SriError} (ha : a ∈ RECOGNISED_ALGORITHMS)
    (herr : fromhash a b o = .error e) :
    e = .malformedBase64 ∨ ∃ l1 l2, e = .digestLengthMismatch l1 l2 := by
  unfold fromhash at herr
  cases hdec : b64decode b with
  | error e' =>
    rw [hdec] at herr
    injection herr with herr
    subst herr
    exact Or.inl (b64decode_error_shape hdec)
  | ok bs =>
    rw [hdec] at herr
    have herr2 : hashNew a bs o = Except.error e := herr
    unfold hashNew at herr2
    rw [if_neg (not_not_intro ha)] at herr2
    by_cases h2 : bs.length ≠ digestSize a
    · rw [if_pos h2] at herr2
      injection herr2 with herr2
      exact Or.inr ⟨_, _, herr2.symm⟩
    · rw [if_neg h2] at herr2; cases herr2

/-! ### Stability of the sort in `parse` -/

theorem orderedInsert_tupleLe_filter (c : Nat) (a : String × List Char × List Char) :
    ∀ l, (List.orderedInsert tupleLe a l).filter (fun t => algIndex t.1 == c)
      = if algIndex a.1 == c then
          a :: l.filter (fun t => algIndex t.1 == c)
        else l.filter (fun t => algIndex t.1 == c) := by
  intro l
  induction l with
  | nil => simp [List.filter_cons]
  | cons y ys ih =>
    simp only [List.orderedInsert]
    by_cases hle : tupleLe a y
    · rw [if_pos hle]
      simp only [List.filter_cons]
    · rw [if_neg hle]
      have hlt : algIndex y.1 < algIndex a.1 := by
        simpa [tupleLe, Nat.not_le] using hle
      simp only [List.filter_cons, ih]
      by_cases hka : (algIndex a.1 == c) = true
      · have hky : (algIndex y.1 == c) = false := by
          have hc : algIndex a.1 = c := by simpa using hka
          simp only [beq_eq_false_iff_ne, ne_eq]
          omega
        simp [hka, hky]
      · simp [hka]

theorem insertionSort_tupleLe_filter (c : Nat) :
    ∀ l : List (String × List Char × List Char),
    (List.insertionSort tupleLe l).filter (fun t => algIndex t.1 == c)
      = l.filter (fun t => algIndex t.1 == c) := by
  intro l
  induction l with
  | nil => rfl
  | cons a l ih =>
    simp only [List.insertionSort]
    rw [orderedInsert_tupleLe_filter, ih, List.filter_cons]

/-! ### Every `findall` match carries a recognised algorithm name -/

theorem matchAlgorithm_recognised {s : List Char} {a : String} {r : List Char}
    (h : matchAlgorithm s = some (a, r)) : a ∈ RECOGNISED_ALGORITHMS := by
  unfold matchAlgorithm at h
  split at h <;> simp_all [RECOGNISED_ALGORITHMS]

theorem matchValue_recognised {s : List Char}
    {t : String × List Char × List Char × List Char}
    (h : matchValue s = some t) : t.1 ∈ RECOGNISED_ALGORITHMS := by
  simp only [matchValue] at h
  cases hma : matchAlgorithm (s.dropWhile isWSP) with
  | none => rw [hma] at h; cases h
  | some ar =>
    obtain ⟨a, s2⟩ := ar
    rw [hma] at h
    have hrec := matchAlgorithm_recognised hma
    simp only at h
    split at h
    · rename_i s3
      by_cases hde : (s3.takeWhile isB64Char).isEmpty
      · rw [if_pos hde] at h; cases h
      · rw [if_neg hde] at h
        split at h <;> (injection h with h; subst h; exact hrec)
    · cases h

theorem findallAux_recognised :
    ∀ (fuel : Nat) (s : List Char) (t : String × List Char × List Char),
    t ∈ findallAux fuel s → t.1 ∈ RECOGNISED_ALGORITHMS := by
  intro fuel
  induction fuel with
  | zero => intro s t h; simp [findallAux] at h
  | succ fuel ih =>
    intro s t h
    simp only [findallAux] at h
    cases hmv : matchValue s with
    | some m =>
      obtain ⟨a, dg, og, rest⟩ := m
      rw [hmv] at h
      simp only at h
      rcases List.mem_cons.mp h with rfl | h'
      · exact matchValue_recognised hmv
      · exact ih _ _ h'
    | none =>
      rw [hmv] at h
      cases s with
      | nil => simp at h
      | cons c cs => exact ih _ _ h

theorem findall_recognised {s : List Char} {t : String × List Char × List Char}
    (h : t ∈ findall s) : t.1 ∈ RECOGNISED_ALGORITHMS :=
  findallAux_recognised _ _ _ h

/-! ### The decoder ignores characters outside the alphabet -/

/-- Dropping the characters that the decoder skips (everything outside the
base64 alphabet other than `=`) upfront does not change the result of the
decode: invalid characters are discarded, not rejected. -/
theorem a2b_filter_invalid :
    ∀ (s : List Char) (q l p : Nat) (acc : List Nat),
    a2b s q l p acc
      = a2b (s.filter fun c => c == '=' || (b64table c).isSome) q l p acc := by
  intro s
  induction s with
  | nil => intro q l p acc; rfl
  | cons c cs ih =>
    intro q l p acc
    by_cases hc : c = '='
    · subst hc
      rw [List.filter_cons,
        if_pos (by simp : (('=' : Char) == '=' || (b64table '=').isSome) = true)]
      simp only [a2b, eq_self_iff_true, if_true]
      by_cases h2 : 2 ≤ q
      · rw [if_pos h2, if_pos h2]
        by_cases h4 : 4 ≤ q + (p + 1)
        · rw [if_pos h4, if_pos h4]
        · rw [if_neg h4, if_neg h4]; exact ih _ _ _ _
      · rw [if_neg h2, if_neg h2]; exact ih _ _ _ _
    · cases ht : b64table c with
      | some v =>
        rw [List.filter_cons, if_pos (by simp [ht] : (c == '=' || (b64table c).isSome) = true)]
        simp only [a2b, if_neg hc, ht]
        rcases q with _ | _ | _ | q <;> exact ih _ _ _ _
      | none =>
        rw [List.filter_cons,
          if_neg (by simp [hc, ht] : ¬(c == '=' || (b64table c).isSome) = true)]
        simp only [a2b, if_neg hc, ht]
        exact ih _ _ _ _

/-- Pointwise-successful construction turns `mapE` into an ordinary map. -/
theorem mapE_map {α β : Type} {f : α → Except SriError β} {g : α → β} :
    ∀ {l : List α}, (∀ x ∈ l, f x = .ok (g x)) → mapE f l = .ok (l.map g) := by
  intro l
  induction l with
  | nil => intro _; rfl
  | cons x xs ih =>
    intro h
    simp only [mapE, List.map_cons]
    rw [h x (by simp), ih (fun y hy => h y (by simp [hy]))]


/-! ## Claim theorems -/

/-- Witness for C1 at a concrete value. -/
theorem fromhashexpr_roundtrip_witness :
    fromhashexpr (hashToString ⟨"sha256", List.replicate 32 0, "abc"⟩) =
      .ok ⟨"sha256", List.replicate 32 0, "abc"⟩ :=
  fromhashexpr_roundtrip ⟨"sha256", List.replicate 32 0, "abc"⟩
    (by decide) (by decide) (by decide) (by decide)

/-- Counterexample to **C2** as stated: `Hash.fromhashexpr` uses
`re.match`, which anchors only at the start; an input consisting of a
valid integrity expression followed by extra non-whitespace text is
accepted (parsing the matching prefix), not rejected. -/
theorem fromhashexpr_trailing_junk_ok :
    fromhashexpr "sha256-AAAAAAAAAAAAAAAAAAAAAAAAAAAAAAAAAAAAAAAAAAA= trailing-junk!" =
      .ok ⟨"sha256", List.replicate 32 0, ""⟩ := by rfl

/-- **C2 amended**: `Hash.fromhashexpr` raises
`MalformedIntegrityExpression` exactly when the `value` production fails
to match a *prefix* of the input anchored at the start; unconsumed
trailing text after a match does not cause failure. -/
theorem fromhashexpr_prefix_anchored (s : String) :
    fromhashexpr s = .error (.malformedIntegrityExpression s) ↔
      matchValue s.data = none := by
  constructor
  · intro h
    cases hmv : matchValue s.data with
    | none => rfl
    | some m =>
      obtain ⟨a, dg, og, rest⟩ := m
      simp only [fromhashexpr, hmv] at h
      rcases fromhash_error_shape h with h1 | ⟨x, y, h1⟩ | ⟨x, y, h1⟩ <;>
        cases h1
  · intro h
    simp only [fromhashexpr, h]

/-- Witness for the amended C2 on a non-matching input. -/
theorem fromhashexpr_prefix_anchored_witness :
    fromhashexpr "not an expression" =
      .error (.malformedIntegrityExpression "not an expression") :=
  (fromhashexpr_prefix_anchored "not an expression").mpr (by rfl)

/-- Counterexample to **C3** as stated: `parse` never deduplicates; an
attribute string repeating one expression yields a two-element list whose
elements are equal. -/
theorem parse_duplicates_kept :
    parse "sha256-AAAAAAAAAAAAAAAAAAAAAAAAAAAAAAAAAAAAAAAAAAA= sha256-AAAAAAAAAAAAAAAAAAAAAAAAAAAAAAAAAAAAAAAAAAA=" =
      .ok [⟨"sha256", List.replicate 32 0, ""⟩,
           ⟨"sha256", List.replicate 32 0, ""⟩] := by rfl

/-- **C3 amended**: `parse` returns exactly one element per grammar match
found in the input — duplicates included, no deduplication of equal
values. -/
theorem parse_length (s : String) (l : List Hash) (hok : parse s = .ok l) :
    l.length = (findall s.data).length := by
  simp only [parse] at hok
  have hf := mapE_eq_ok_iff.mp hok
  have hlen := hf.length_eq
  rw [← hlen]
  exact (List.perm_insertionSort tupleLe _).length_eq

/-- Witness for the amended C3. -/
theorem parse_length_witness :
    (([⟨"sha256", List.replicate 32 0, ""⟩,
       ⟨"sha256", List.replicate 32 0, ""⟩] : List Hash)).length =
      (findall ("sha256-AAAAAAAAAAAAAAAAAAAAAAAAAAAAAAAAAAAAAAAAAAA= sha256-AAAAAAAAAAAAAAAAAAAAAAAAAAAAAAAAAAAAAAAAAAA=").data).length :=
  parse_length _ _ (by rfl)

/-- **C4**: for every input accepted by `parse`, the returned list is
ordered by the fixed strength ranking `sha512 > sha384 > sha256` —
`algIndex` is 0/1/2 on these names, so `Pairwise (algIndex ≤)` says every
`sha512` value precedes every `sha384` value, which precedes every
`sha256` value — and the sort is stable: restricted to any one strength
rank, the output lists the values in their original left-to-right
discovery order (`parseUnsorted`). -/
theorem parse_sorted_stable (s : String) (l : List Hash)
    (hok : parse s = .ok l) :
    l.Pairwise (fun h1 h2 => algIndex h1.algorithm ≤ algIndex h2.algorithm)
    ∧ ∃ l₀, parseUnsorted s = .ok l₀ ∧
        ∀ c : Nat, l.filter (fun h => algIndex h.algorithm == c)
          = l₀.filter (fun h => algIndex h.algorithm == c) := by
  simp only [parse] at hok
  have hsorted := mapE_eq_ok_iff.mp hok
  have hfields : ∀ (t : String × List Char × List Char) (h : Hash),
      fromhashTuple t = .ok h → h.algorithm = t.1 := by
    intro t h hR
    exact (fromhash_ok_fields hR).1
  have hpair : l.Pairwise
      (fun h1 h2 => algIndex h1.algorithm ≤ algIndex h2.algorithm) := by
    refine forall₂_pairwise ?_ hsorted
      (List.sorted_insertionSort tupleLe (findall s.data))
    intro t u h1 h2 hR1 hR2 hP
    rw [hfields t h1 hR1, hfields u h2 hR2]
    exact hP
  have hallok : ∀ t ∈ findall s.data, ∃ h, fromhashTuple t = .ok h := by
    intro t ht
    obtain ⟨h, _, hR⟩ :=
      forall₂_mem_left hsorted t ((List.mem_insertionSort tupleLe).mpr ht)
    exact ⟨h, hR⟩
  obtain ⟨l₀, hl₀⟩ := mapE_ok_of_forall hallok
  have hf₀ := mapE_eq_ok_iff.mp hl₀
  refine ⟨hpair, l₀, hl₀, ?_⟩
  intro c
  have hpq : ∀ (t : String × List Char × List Char) (h : Hash),
      fromhashTuple t = .ok h →
      (algIndex t.1 == c) = (algIndex h.algorithm == c) := by
    intro t h hR
    rw [hfields t h hR]
  have hfil1 := forall₂_filter hpq hsorted
  have hfil0 := forall₂_filter hpq hf₀
  rw [insertionSort_tupleLe_filter] at hfil1
  exact forall₂_right_unique
    (fun t h h' e1 e2 => by rw [e1] at e2; injection e2) hfil1 hfil0

set_option maxRecDepth 8192 in
/-- Witness for C4: a `sha256` expression followed by a `sha512`
expression comes back with the `sha512` value first. -/
theorem parse_sorted_stable_witness :
    parse "sha256-AAAAAAAAAAAAAAAAAAAAAAAAAAAAAAAAAAAAAAAAAAA= sha512-AAAAAAAAAAAAAAAAAAAAAAAAAAAAAAAAAAAAAAAAAAAAAAAAAAAAAAAAAAAAAAAAAAAAAAAAAAAAAAAAAAAAAA==" =
      .ok [⟨"sha512", List.replicate 64 0, ""⟩,
           ⟨"sha256", List.replicate 32 0, ""⟩]
    ∧ ([⟨"sha512", List.replicate 64 0, ""⟩,
        ⟨"sha256", List.replicate 32 0, ""⟩] : List Hash).Pairwise
        (fun h1 h2 => algIndex h1.algorithm ≤ algIndex h2.algorithm) := by
  have hok : parse "sha256-AAAAAAAAAAAAAAAAAAAAAAAAAAAAAAAAAAAAAAAAAAA= sha512-AAAAAAAAAAAAAAAAAAAAAAAAAAAAAAAAAAAAAAAAAAAAAAAAAAAAAAAAAAAAAAAAAAAAAAAAAAAAAAAAAAAAAA==" =
      .ok [⟨"sha512", List.replicate 64 0, ""⟩,
           ⟨"sha256", List.replicate 32 0, ""⟩] := by rfl
  exact ⟨hok, (parse_sorted_stable _ _ hok).1⟩

set_option maxRecDepth 4096 in
/-- **C5**: the single-expression and multi-expression paths disagree on
the options group.  `Hash.fromhashexpr` strips the leading `?`
(`options[1:]`), but `parse` passes the raw `findall` group — leading `?`
included — straight to `Hash.fromhash`.  On the same input the two paths
construct different values, breaking the intended agreement (and with it
the encode/parse round-trip for optioned values). -/
theorem parse_keeps_options_question_mark :
    parse "sha256-AAAAAAAAAAAAAAAAAAAAAAAAAAAAAAAAAAAAAAAAAAA=?opt" =
      .ok [⟨"sha256", List.replicate 32 0, "?opt"⟩]
    ∧ fromhashexpr "sha256-AAAAAAAAAAAAAAAAAAAAAAAAAAAAAAAAAAAAAAAAAAA=?opt" =
      .ok ⟨"sha256", List.replicate 32 0, "opt"⟩ :=
  ⟨by rfl, by rfl⟩

/-- Counterexample to **C6** as stated: `base64.standard_b64decode` runs
in non-strict mode, so a character outside the base64 alphabet (here `!`)
is silently discarded rather than raising `MalformedBase64` — the
construction succeeds. -/
theorem fromhash_invalid_char_accepted :
    fromhash "sha256" ('!' :: "AAAAAAAAAAAAAAAAAAAAAAAAAAAAAAAAAAAAAAAAAAA=".data) "" =
      .ok ⟨"sha256", List.replicate 32 0, ""⟩ := by rfl

/-- **C6 amended**: decoding is split in two stages, as in Python 3.  The
`str`-to-bytes conversion rejects any non-ASCII character (surfacing as
`MalformedBase64` before decoding proper); but an ASCII character outside
the standard base64 alphabet (other than `=`) is silently discarded
before decoding, never rejected: on all-ASCII input, `Hash.fromhash`
gives the same result as on the input with those characters removed. -/
theorem fromhash_discards_invalid (alg : String) (b64digest : List Char)
    (opts : String) :
    ((∀ c ∈ b64digest, isAsciiChar c = true) →
      fromhash alg b64digest opts =
        fromhash alg
          (b64digest.filter fun c => c == '=' || (b64table c).isSome) opts)
    ∧ ((¬∀ c ∈ b64digest, isAsciiChar c = true) →
      fromhash alg b64digest opts = .error .malformedBase64) := by
  constructor
  · intro hascii
    unfold fromhash b64decode
    rw [if_pos (List.all_eq_true.mpr hascii),
      if_pos (List.all_eq_true.mpr (fun c hc =>
        hascii c (List.mem_of_mem_filter hc))),
      a2b_filter_invalid b64digest]
  · intro hnot
    unfold fromhash b64decode
    rw [if_neg (fun hall => hnot (List.all_eq_true.mp hall))]

/-- Witness for the amended C6: discarding the ASCII `!` is exactly what
the decoder does. -/
theorem fromhash_discards_invalid_witness :
    fromhash "sha256" ('!' :: "AAAAAAAAAAAAAAAAAAAAAAAAAAAAAAAAAAAAAAAAAAA=".data) "" =
      fromhash "sha256"
        (('!' :: "AAAAAAAAAAAAAAAAAAAAAAAAAAAAAAAAAAAAAAAAAAA=".data).filter
          fun c => c == '=' || (b64table c).isSome) "" :=
  (fromhash_discards_invalid "sha256"
    ('!' :: "AAAAAAAAAAAAAAAAAAAAAAAAAAAAAAAAAAAAAAAAAAA=".data) "").1 (by decide)

/-- **C7**: the primary constructor `Hash.__new__` succeeds exactly when
the algorithm is recognised and the digest length equals the algorithm's
fixed digest size (64/48/32 bytes for sha512/sha384/sha256); an
unrecognised algorithm fails with `UnsupportedAlgorithm` carrying the
offending value and the recognised set (checked before the length check,
i.e. regardless of the digest), and a recognised algorithm with a
wrong-length digest fails with `DigestLengthMismatch` carrying actual and
expected lengths; a success returns exactly the record of the three
arguments and has no other effect. -/
theorem hashNew_validation (alg : String) (dg : List Nat) (opts : String) :
    ((∃ h, hashNew alg dg opts = .ok h) ↔
      alg ∈ RECOGNISED_ALGORITHMS ∧ dg.length = digestSize alg)
    ∧ (alg ∉ RECOGNISED_ALGORITHMS →
        hashNew alg dg opts =
          .error (.unsupportedAlgorithm alg RECOGNISED_ALGORITHMS))
    ∧ (alg ∈ RECOGNISED_ALGORITHMS → dg.length ≠ digestSize alg →
        hashNew alg dg opts =
          .error (.digestLengthMismatch dg.length (digestSize alg)))
    ∧ (∀ h, hashNew alg dg opts = .ok h → h = ⟨alg, dg, opts⟩)
    ∧ digestSize "sha512" = 64 ∧ digestSize "sha384" = 48
    ∧ digestSize "sha256" = 32 := by
  refine ⟨hashNew_ok_iff, ?_, ?_, fun h hok => hashNew_ok_inj hok,
    by decide, by decide, by decide⟩
  · intro h1
    unfold hashNew
    rw [if_pos h1]
  · intro h1 h2
    unfold hashNew
    rw [if_neg (not_not_intro h1), if_pos h2]

/-- Witness for C7: `md5` is rejected as unsupported. -/
theorem hashNew_validation_witness :
    hashNew "md5" [] "" =
      .error (.unsupportedAlgorithm "md5" RECOGNISED_ALGORITHMS) :=
  (hashNew_validation "md5" [] "").2.1 (by decide)

/-- **C9**: `Hash.__eq__` is structural over (algorithm, digest bytes,
options) — true exactly when all three fields agree; equal values feed the
same tuple to `hash` (so their hash codes agree); and values differing
only in options are not equal. -/
theorem pyEq_structural (h1 h2 : Hash) :
    (pyEq h1 h2 = true ↔
      h1.algorithm = h2.algorithm ∧ h1.digest = h2.digest ∧
        h1.options = h2.options)
    ∧ (pyEq h1 h2 = true → pyHashKey h1 = pyHashKey h2)
    ∧ (h1.algorithm = h2.algorithm → h1.digest = h2.digest →
        h1.options ≠ h2.options → pyEq h1 h2 = false) := by
  refine ⟨?_, ?_, ?_⟩
  · simp [pyEq, and_assoc]
  · intro he
    simp only [pyEq, Bool.and_eq_true, beq_iff_eq] at he
    simp [pyHashKey, he.1.1, he.1.2, he.2]
  · intro ha hd ho
    simp [pyEq, ha, hd, ho]

/-- **C8**: `parse` raises an error exactly when some grammar match (which
by construction carries a recognised algorithm name, see
`findall_recognised`) fails construction, and every such error is a
`MalformedBase64` or `DigestLengthMismatch`; text that matches no
recognised algorithm name contributes no matches and thus never an error.
Concretely, `parse("sha256-AAAA")` raises a length mismatch (`AAAA`
decodes to 3 bytes, not 32) and `parse` of a `sha1` expression returns the
empty list. -/
theorem parse_error_policy :
    (∀ s : String,
      ((∃ e, parse s = .error e) ↔
        ∃ t ∈ findall s.data, ∃ e, fromhashTuple t = .error e)
      ∧ (∀ e, parse s = .error e →
          e = .malformedBase64 ∨ ∃ l1 l2, e = .digestLengthMismatch l1 l2))
    ∧ parse "sha256-AAAA" = .error (.digestLengthMismatch 3 32)
    ∧ parse "sha1-2jmj7l5rSw0yVb/vlWAYkK/YBwk=" = .ok [] := by
  refine ⟨?_, by rfl, by rfl⟩
  intro s
  constructor
  · constructor
    · rintro ⟨e, he⟩
      simp only [parse] at he
      obtain ⟨t, ht, hte⟩ := mapE_eq_error he
      exact ⟨t, (List.mem_insertionSort tupleLe).mp ht, e, hte⟩
    · rintro ⟨t, ht, e, hte⟩
      cases hp : parse s with
      | error e' => exact ⟨e', rfl⟩
      | ok l =>
        exfalso
        simp only [parse] at hp
        have hf := mapE_eq_ok_iff.mp hp
        obtain ⟨h, _, hR⟩ :=
          forall₂_mem_left hf t ((List.mem_insertionSort tupleLe).mpr ht)
        rw [hte] at hR
        cases hR
  · intro e he
    simp only [parse] at he
    obtain ⟨t, ht, hte⟩ := mapE_eq_error he
    have hrec := findall_recognised ((List.mem_insertionSort tupleLe).mp ht)
    exact fromhash_error_recognised hrec hte

/-- Witness for C8: the failing `sha256-AAAA` input indeed contains a
failing match. -/
theorem parse_error_policy_witness :
    ∃ t ∈ findall "sha256-AAAA".data, ∃ e, fromhashTuple t = .error e :=
  (parse_error_policy.1 "sha256-AAAA").1.mp ⟨_, parse_error_policy.2.1⟩

/-- **C10**: for every payload and list of recognised algorithms (the
digest hasher being the external collaborator `hashD`, which returns
digests of the algorithm's size), `generate` yields exactly one value per
requested algorithm in the given order, the i-th being
`fromresource(data, algorithms[i])` with empty options; the default
algorithm list is `[DEFAULT_ALGORITHM]` with `DEFAULT_ALGORITHM =
"sha384"`; and `render` is the separator-join of the canonical string
encodings of those values, the separator defaulting to a single space. -/
theorem generate_render_spec (hashD : String → List Nat → List Nat)
    (data : List Nat) (algs : List String) (sep : String)
    (hrec : ∀ a ∈ algs, a ∈ RECOGNISED_ALGORITHMS)
    (hlen : ∀ a ∈ algs, (hashD a data).length = digestSize a) :
    generate hashD data algs = .ok (algs.map fun a => ⟨a, hashD a data, ""⟩)
    ∧ (∀ a ∈ algs, fromresource hashD data a = .ok ⟨a, hashD a data, ""⟩)
    ∧ render hashD data algs sep =
        .ok (String.intercalate sep
          (algs.map fun a => hashToString ⟨a, hashD a data, ""⟩))
    ∧ generate hashD data = generate hashD data [DEFAULT_ALGORITHM]
    ∧ render hashD data algs = render hashD data algs " "
    ∧ DEFAULT_ALGORITHM = "sha384" := by
  have hfr : ∀ a ∈ algs,
      fromresource hashD data a = .ok ⟨a, hashD a data, ""⟩ := by
    intro a ha
    unfold fromresource
    rw [if_neg (not_not_intro (hrec a ha))]
    unfold hashNew
    rw [if_neg (not_not_intro (hrec a ha)), if_neg (not_not_intro (hlen a ha))]
  have hgen : generate hashD data algs
      = .ok (algs.map fun a => ⟨a, hashD a data, ""⟩) := by
    unfold generate
    exact mapE_map hfr
  refine ⟨hgen, hfr, ?_, rfl, rfl, rfl⟩
  unfold render
  rw [hgen]
  simp only [List.map_map]
  rfl

/-- Witness for C10 with a stub hasher of the right output sizes. -/
theorem generate_render_spec_witness :
    generate (fun a _ => List.replicate (digestSize a) 0) [1, 2, 3]
        ["sha256", "sha512"]
      = .ok (["sha256", "sha512"].map
          fun a => ⟨a, List.replicate (digestSize a) 0, ""⟩) :=
  (generate_render_spec (fun a _ => List.replicate (digestSize a) 0) [1, 2, 3]
    ["sha256", "sha512"] " " (by decide) (by decide)).1

/-- Witness for C9: same algorithm and digest, different options — not
equal. -/
theorem pyEq_structural_witness :
    pyEq ⟨"sha256", List.replicate 32 0, ""⟩
         ⟨"sha256", List.replicate 32 0, "opt"⟩ = false :=
  (pyEq_structural ⟨"sha256", List.replicate 32 0, ""⟩
    ⟨"sha256", List.replicate 32 0, "opt"⟩).2.2 rfl rfl (by decide)

end SRI
